import Mathlib

/-!
Verification development for the pystiche image-pyramid engine and the VGG
multi-layer-encoder labelling.

The pyramid engine (`PyramidLevel`, `ImagePyramid`, `OctaveImagePyramid`) is
modelled from the specification: the repository snapshot contains only the
pyramid's test suite (`tests/test_pyramid.py`), not the pyramid module itself,
so every pyramid definition below carries a doc comment starting
`Modelled from the spec:`.  The VGG labelling (`collectModules`) is embedded
directly from `pystiche/enc/models/vgg.py`.
-/

namespace Pystiche

/-- Modelled from the spec: the edge kind — whether the constrained dimension
is the shorter or the longer side of an image (`Enum{SHORT, LONG}`). -/
inductive Edge where
  | short : Edge
  | long : Edge
deriving DecidableEq, Repr

/-- Modelled from the spec: a single resolution tier of the pyramid, with an
edge size, a step count and the edge kind the size constrains. -/
structure PyramidLevel where
  edge_size : Nat
  num_steps : Nat
  edge : Edge
deriving DecidableEq, Repr

/-- Modelled from the spec: `iterate() -> lazy sequence of integers` yields
`1, 2, ..., num_steps` in order; finite; pure (so trivially restartable). -/
def PyramidLevel.iterate (l : PyramidLevel) : List Nat :=
  List.range' 1 l.num_steps

/-- Modelled from the spec: an image is an opaque raster buffer; the pyramid
never inspects pixel content.  We keep the two spatial dimensions (needed by
`extract_edge_size`) and an opaque content tag distinguishing pixel data. -/
structure Image where
  height : Nat
  width : Nat
  data : Nat
deriving DecidableEq, Repr

/-- Modelled from the spec: `extract_edge_size(image, edge_kind)` returns the
length of the shorter resp. longer spatial side of the image. -/
def extract_edge_size (img : Image) : Edge → Nat
  | .short => Nat.min img.height img.width
  | .long => Nat.max img.height img.width

/-- A concrete external collaborator satisfying the resize contract of the
spec (`extract_edge_size (resize img s k) k = s`); used to instantiate the
theorems that quantify over an arbitrary contract-satisfying resize.  The
content tag changes, recording that resizing produces new pixel data derived
from the input image. -/
def resizeExample (img : Image) (s : Nat) (_k : Edge) : Image :=
  { height := s, width := s, data := img.data + 1 }

/-- Modelled from the spec: a constructor parameter that is either a single
scalar (broadcast to all levels) or a per-level sequence. -/
inductive ScalarOrSeq (α : Type) where
  | scalar : α → ScalarOrSeq α
  | seq : List α → ScalarOrSeq α

/-- Modelled from the spec: resolve a scalar-or-sequence parameter to a
sequence of the requested length; a scalar is replicated, a sequence is kept
as given (its length is validated by the caller). -/
def ScalarOrSeq.resolve {α : Type} (n : Nat) : ScalarOrSeq α → List α
  | .scalar a => List.replicate n a
  | .seq xs => xs

/-- Modelled from the spec: build the level list of an `ImagePyramid` from
`edge_sizes` plus scalar-or-sequence `num_steps` and `edge`; inputs are
zipped positionally; a length mismatch between sequences is a configuration
error (`none`). -/
def buildLevels (edge_sizes : List Nat) (num_steps : ScalarOrSeq Nat)
    (edge : ScalarOrSeq Edge) : Option (List PyramidLevel) :=
  let n := edge_sizes.length
  let ns := num_steps.resolve n
  let es := edge.resolve n
  if ns.length = n ∧ es.length = n then
    some (List.zipWith (fun sz (p : Nat × Edge) => PyramidLevel.mk sz p.1 p.2)
      edge_sizes (ns.zip es))
  else
    none

/-- Modelled from the spec: an ordered, indexable, iterable collection of
`PyramidLevel`.  The bound resize targets are represented extensionally: the
iteration function below takes the list of the bound targets' current images
as explicit state. -/
structure ImagePyramid where
  levels : List PyramidLevel
deriving DecidableEq, Repr

/-- Modelled from the spec: length is the number of levels; pure accessor. -/
def ImagePyramid.len (pyr : ImagePyramid) : Nat :=
  pyr.levels.length

/-- Modelled from the spec: indexed access returns the `PyramidLevel` at the
given index, a pure accessor with no effect on resize/restore state;
an out-of-range index is a boundary error, modelled as `none`. -/
def ImagePyramid.getItem (pyr : ImagePyramid) (idx : Nat) : Option PyramidLevel :=
  pyr.levels.get? idx

/-- Modelled from the spec: derived level count of `OctaveImagePyramid` when
`num_levels` is not supplied — the largest integer `L` such that
`max_edge_size / 2^(L-1) >= min_edge_size`, i.e.
`L = floor(log2(max_edge_size / min_edge_size)) + 1`, with a floor of 1. -/
def octaveNumLevels (max_edge_size min_edge_size : Nat) : Nat :=
  Nat.log2 (max_edge_size / min_edge_size) + 1

/-- Modelled from the spec: edge sizes for levels `0 .. L-1` of an octave
pyramid, index 0 smallest: `max_edge_size / 2^(L-1-i)` rounded down, each at
least 1. -/
def octaveEdgeSizes (max_edge_size num_levels : Nat) : List Nat :=
  (List.range num_levels).map
    (fun i => Nat.max (max_edge_size / 2 ^ (num_levels - 1 - i)) 1)

/-- Modelled from the spec: `OctaveImagePyramid` derives the level count (when
not supplied) and the doubling edge sizes, then delegates to the
`ImagePyramid` constructor; `min_edge_size > max_edge_size` with no explicit
level count is a configuration error (`none`). -/
def OctaveImagePyramid (max_edge_size : Nat) (num_steps : ScalarOrSeq Nat)
    (num_levels : Option Nat) (min_edge_size : Nat) (edge : ScalarOrSeq Edge) :
    Option ImagePyramid :=
  match num_levels with
  | none =>
      if max_edge_size < min_edge_size then none
      else
        (buildLevels (octaveEdgeSizes max_edge_size
            (octaveNumLevels max_edge_size min_edge_size)) num_steps edge).map
          ImagePyramid.mk
  | some L =>
      (buildLevels (octaveEdgeSizes max_edge_size L) num_steps edge).map
        ImagePyramid.mk

/-- Modelled from the spec: what the consumer of the iteration does after
receiving a level — continue pulling, exit early (break), or raise an error
(carried as an opaque numeric code). -/
inductive Outcome where
  | next : Outcome
  | brk : Outcome
  | exc : Nat → Outcome
deriving DecidableEq, Repr

/-- Modelled from the spec: the observable side effects of one iteration pass
on the bound targets — a `set_image` of the freshly resized images on entry
to a level, and the final `set_image` restoring the captured originals. -/
inductive PyrEvent where
  | resized : Nat → List Image → PyrEvent
  | restored : List Image → PyrEvent
deriving DecidableEq, Repr

/-- Is this event the restoration side effect? -/
def PyrEvent.isRestored : PyrEvent → Bool
  | .restored _ => true
  | .resized _ _ => false

/-- The level index of a `resized` event, if any. -/
def PyrEvent.resizedIdx? : PyrEvent → Option Nat
  | .resized i _ => some i
  | .restored _ => none

/-- A consumer drives the iteration: at level index `i` it receives the level
and the targets' current (just resized) images, may mutate the images, and
reports an `Outcome`. -/
def Consumer : Type :=
  Nat → PyramidLevel → List Image → List Image × Outcome

/-- Modelled from the spec: resize every bound target's current image to the
level's edge size along the level's edge kind. -/
def resizeAll (resize : Image → Nat → Edge → Image) (l : PyramidLevel)
    (imgs : List Image) : List Image :=
  imgs.map (fun img => resize img l.edge_size l.edge)

/-- Modelled from the spec: the level-by-level loop body of one iteration
pass.  On entry to each level the targets' current images are resized and
set; then the level is yielded to the consumer, which may mutate the images
and either continues, breaks, or raises.  Returns the targets' images when
the loop stops, the raised error (if any), and the trace of `set_image`
side effects.  The restore step is NOT here: it is the `finally` block of
`ImagePyramid.run`. -/
def runLevels (resize : Image → Nat → Edge → Image) (consumer : Consumer) :
    List PyramidLevel → Nat → List Image → List Image × Option Nat × List PyrEvent
  | [], _, imgs => (imgs, none, [])
  | l :: rest, i, imgs =>
    let res := resizeAll resize l imgs
    match consumer i l res with
    | (imgs2, .next) =>
        let (fin, err, evs) := runLevels resize consumer rest (i + 1) imgs2
        (fin, err, .resized i res :: evs)
    | (imgs2, .brk) => (imgs2, none, [.resized i res])
    | (imgs2, .exc e) => (imgs2, some e, [.resized i res])

/-- Modelled from the spec: one full iteration pass over the pyramid with the
bound targets' images `init` as state.  The originals are captured once at
the very start; the loop runs inside a try/finally equivalent whose finally
block restores every target to its captured original exactly once, on every
exit path; a consumer-raised error is passed through unchanged. -/
def ImagePyramid.run (pyr : ImagePyramid) (resize : Image → Nat → Edge → Image)
    (consumer : Consumer) (init : List Image) :
    List Image × Option Nat × List PyrEvent :=
  let originals := init
  let (_, err, evs) := runLevels resize consumer pyr.levels 0 init
  (originals, err, evs ++ [.restored originals])

/-- The consumer raises error `e` somewhere during the loop over `levels`
starting at index `i` with target images `imgs`: either at the first level,
or after continuing past it. -/
inductive Throws (resize : Image → Nat → Edge → Image) (consumer : Consumer) :
    List PyramidLevel → Nat → List Image → Nat → Prop where
  | here {l : PyramidLevel} {rest : List PyramidLevel} {i : Nat}
      {imgs imgs2 : List Image} {e : Nat}
      (h : consumer i l (resizeAll resize l imgs) = (imgs2, .exc e)) :
      Throws resize consumer (l :: rest) i imgs e
  | there {l : PyramidLevel} {rest : List PyramidLevel} {i : Nat}
      {imgs imgs2 : List Image} {e : Nat}
      (h : consumer i l (resizeAll resize l imgs) = (imgs2, .next))
      (tail : Throws resize consumer rest (i + 1) imgs2 e) :
      Throws resize consumer (l :: rest) i imgs e

/-! ### VGG multi-layer encoder labelling, embedded from
`pystiche/enc/models/vgg.py` (`VGGMultiLayerEncoder._collect_modules`). -/

/-- The torch module kinds distinguished by `_collect_modules`: `nn.Conv2d`,
`nn.BatchNorm2d`, `nn.ReLU` (with its inplace flag) and the final `else`
branch, which in the VGG feature extractors is always `nn.MaxPool2d`.  The
`preprocessor` kind stands for the module returned by `get_preprocessor`. -/
inductive NNModule where
  | conv2d : NNModule
  | batchNorm2d : NNModule
  | relu : Bool → NNModule
  | maxPool2d : NNModule
  | preprocessor : NNModule
deriving DecidableEq, Repr

/-- The `for module in model.children()` loop of `_collect_modules`: name each
module from the running `block`/`depth` counters; a ReLU increases the depth
of the current block (and is replaced by a non-inplace ReLU unless
`allow_inplace`); a pooling layer (any module falling into the `else` branch)
ends the current block. -/
def collectLoop (allow_inplace : Bool) :
    List NNModule → Nat → Nat → List (String × NNModule)
  | [], _, _ => []
  | m :: rest, block, depth =>
    match m with
    | .conv2d =>
        (s!"conv{block}_{depth}", m) :: collectLoop allow_inplace rest block depth
    | .batchNorm2d =>
        (s!"bn{block}_{depth}", m) :: collectLoop allow_inplace rest block depth
    | .relu ip =>
        let m2 := if allow_inplace then NNModule.relu ip else NNModule.relu false
        (s!"relu{block}_{depth}", m2) :: collectLoop allow_inplace rest block (depth + 1)
    | _ =>
        (s!"pool{block}", m) :: collectLoop allow_inplace rest (block + 1) 1

/-- `VGGMultiLayerEncoder._collect_modules`: optionally prepend the
preprocessing stage, then label the children of `model.features` starting
from `block = depth = 1`. -/
def collectModules (internal_preprocessing allow_inplace : Bool)
    (children : List NNModule) : List (String × NNModule) :=
  (if internal_preprocessing then [("preprocessing", NNModule.preprocessor)] else [])
    ++ collectLoop allow_inplace children 1 1

/-- One step of the block/depth counter scheme of the claim: depth is
incremented after each ReLU; block is incremented and depth reset to 1 after
each pooling layer; other layers leave the counters unchanged. -/
def counterStep (m : NNModule) (bd : Nat × Nat) : Nat × Nat :=
  match m with
  | .conv2d => bd
  | .batchNorm2d => bd
  | .relu _ => (bd.1, bd.2 + 1)
  | _ => (bd.1 + 1, 1)

/-- The block/depth counters of the labelling scheme after processing a
prefix of the module list. -/
def counterAfter : List NNModule → Nat × Nat → Nat × Nat
  | [], bd => bd
  | m :: rest, bd => counterAfter rest (counterStep m bd)

/-- The label the claim's scheme assigns to a module under given
block/depth counters. -/
def schemeName (m : NNModule) (bd : Nat × Nat) : String :=
  match m with
  | .conv2d => s!"conv{bd.1}_{bd.2}"
  | .batchNorm2d => s!"bn{bd.1}_{bd.2}"
  | .relu _ => s!"relu{bd.1}_{bd.2}"
  | _ => s!"pool{bd.1}"

/-- The module `_collect_modules` places in the list: ReLU layers are
replaced by non-inplace ReLUs unless `allow_inplace`; all other modules are
kept as they are. -/
def placedModule (allow_inplace : Bool) : NNModule → NNModule
  | .relu ip => if allow_inplace then NNModule.relu ip else NNModule.relu false
  | m => m

/-! ### Helper lemmas about the constructors -/

lemma zipWith_mk_replicate (es : List Nat) (s : Nat) (e : Edge) :
    List.zipWith (fun sz (p : Nat × Edge) => PyramidLevel.mk sz p.1 p.2) es
      (List.replicate es.length (s, e))
      = es.map (fun sz => PyramidLevel.mk sz s e) := by
  induction es with
  | nil => rfl
  | cons a t ih => simp [List.replicate_succ, ih]

lemma buildLevels_scalar (es : List Nat) (s : Nat) (e : Edge) :
    buildLevels es (.scalar s) (.scalar e)
      = some (es.map fun sz => PyramidLevel.mk sz s e) := by
  simp [buildLevels, ScalarOrSeq.resolve, zipWith_mk_replicate]

lemma buildLevels_seq (es ns : List Nat) (e : Edge) (h : ns.length = es.length) :
    buildLevels es (.seq ns) (.scalar e)
      = some (List.zipWith (fun sz (p : Nat × Edge) => PyramidLevel.mk sz p.1 p.2)
          es (ns.zip (List.replicate es.length e))) := by
  simp [buildLevels, ScalarOrSeq.resolve, h]

lemma zipWith_mk_get? (es ns : List Nat) (eds : List Edge) :
    ∀ idx : Nat, idx < es.length → idx < ns.length → idx < eds.length →
      (List.zipWith (fun sz (p : Nat × Edge) => PyramidLevel.mk sz p.1 p.2)
          es (ns.zip eds)).get? idx
        = some (PyramidLevel.mk (es.getD idx 0) (ns.getD idx 0) (eds.getD idx Edge.short)) := by
  induction es generalizing ns eds with
  | nil => intro idx h1 _ _; simp at h1
  | cons a t ih =>
    intro idx h1 h2 h3
    cases ns with
    | nil => simp at h2
    | cons b u =>
      cases eds with
      | nil => simp at h3
      | cons c v =>
        cases idx with
        | zero => rfl
        | succ j =>
          simpa using ih u v j (by simpa using h1) (by simpa using h2) (by simpa using h3)

lemma zipWith_mk_length (es ns : List Nat) (eds : List Edge)
    (h1 : ns.length = es.length) (h2 : eds.length = es.length) :
    (List.zipWith (fun sz (p : Nat × Edge) => PyramidLevel.mk sz p.1 p.2)
        es (ns.zip eds)).length = es.length := by
  simp [h1, h2]

lemma getD_replicate_self {α : Type} (n i : Nat) (a : α) :
    (List.replicate n a).getD i a = a := by
  induction n generalizing i with
  | zero => simp
  | succ m ih => cases i <;> simp [List.replicate_succ, ih]

/-! ### Theorems for the claims -/

/-- C4: for a `PyramidLevel` with `num_steps = N ≥ 1`, iterating yields
exactly the integers `1, 2, ..., N` in ascending order; the sequence is
finite (a list) and, the model being a pure function of the immutable level,
re-iterating the same instance yields the same sequence with no side
effects. -/
theorem level_iterate_one_to_n (l : PyramidLevel) (h : 1 ≤ l.num_steps) :
    l.iterate.length = l.num_steps
    ∧ (∀ i : Nat, ∀ hi : i < l.iterate.length, l.iterate.get ⟨i, hi⟩ = 1 + i)
    ∧ (∀ i j : Nat, ∀ hi : i < l.iterate.length, ∀ hj : j < l.iterate.length,
        i < j → l.iterate.get ⟨i, hi⟩ < l.iterate.get ⟨j, hj⟩) := by
  have hget : ∀ i : Nat, ∀ hi : i < l.iterate.length, l.iterate.get ⟨i, hi⟩ = 1 + i := by
    intro i hi
    simp [PyramidLevel.iterate, List.get_eq_getElem, List.getElem_range']
  refine ⟨by simp [PyramidLevel.iterate], hget, ?_⟩
  intro i j hi hj hij
  rw [hget i hi, hget j hj]
  omega

/-- Witness for C4 at a concrete level with 100 steps. -/
theorem level_iterate_one_to_n_witness :
    (PyramidLevel.mk 1 100 Edge.short).iterate.length = 100 :=
  (level_iterate_one_to_n (PyramidLevel.mk 1 100 Edge.short) (by decide)).1

/-- C6: constructing an `ImagePyramid` from `L` edge sizes with a scalar
`num_steps` and a scalar `edge` succeeds and yields `L` levels, each carrying
that `num_steps` and that edge kind. -/
theorem image_pyramid_broadcast (es : List Nat) (s : Nat) (e : Edge) :
    buildLevels es (.scalar s) (.scalar e)
      = some (es.map fun sz => PyramidLevel.mk sz s e)
    ∧ (es.map fun sz => PyramidLevel.mk sz s e).length = es.length
    ∧ ∀ l ∈ es.map fun sz => PyramidLevel.mk sz s e, l.num_steps = s ∧ l.edge = e := by
  refine ⟨buildLevels_scalar es s e, by simp, ?_⟩
  intro l hl
  simp [List.mem_map] at hl
  obtain ⟨sz, _, rfl⟩ := hl
  exact ⟨rfl, rfl⟩

/-- Witness for C6: three unit edge sizes with scalar steps 2 and long edge. -/
theorem image_pyramid_broadcast_witness :
    buildLevels [1, 1, 1] (.scalar 2) (.scalar Edge.long)
      = some [PyramidLevel.mk 1 2 Edge.long, PyramidLevel.mk 1 2 Edge.long,
          PyramidLevel.mk 1 2 Edge.long] :=
  (image_pyramid_broadcast [1, 1, 1] 2 Edge.long).1

/-- C7: `len` is the number of levels; indexed access at every valid index
returns the level whose `(edge_size, num_steps)` is the idx-th construction
input pair — a pure accessor (a function of the immutable level list only,
so it cannot affect resize/restore state) — and every out-of-range index is
a boundary error (`none`). -/
theorem pyramid_len_getitem (es ns : List Nat) (h : ns.length = es.length) :
    ∀ lvls, buildLevels es (.seq ns) (.scalar Edge.short) = some lvls →
      (ImagePyramid.mk lvls).len = es.length
      ∧ (∀ idx : Nat, idx < es.length →
          (ImagePyramid.mk lvls).getItem idx
            = some (PyramidLevel.mk (es.getD idx 0) (ns.getD idx 0) Edge.short))
      ∧ (∀ idx : Nat, es.length ≤ idx → (ImagePyramid.mk lvls).getItem idx = none) := by
  intro lvls hb
  rw [buildLevels_seq es ns Edge.short h] at hb
  have hlvls := Option.some.inj hb
  have hlen : lvls.length = es.length := by
    rw [← hlvls]
    exact zipWith_mk_length es ns _ h (by simp)
  refine ⟨hlen, ?_, ?_⟩
  · intro idx hidx
    show lvls.get? idx = _
    rw [← hlvls]
    rw [zipWith_mk_get? es ns _ idx hidx (by omega) (by simpa using hidx)]
    rw [getD_replicate_self]
  · intro idx hidx
    show lvls.get? idx = none
    rw [List.get?_eq_none]
    omega

/-- Witness for C7 at edge sizes `(1,2,3)`, steps `(4,5,6)`, index 1. -/
theorem pyramid_len_getitem_witness :
    (ImagePyramid.mk [PyramidLevel.mk 1 4 Edge.short, PyramidLevel.mk 2 5 Edge.short,
        PyramidLevel.mk 3 6 Edge.short]).getItem 1
      = some (PyramidLevel.mk 2 5 Edge.short) :=
  (pyramid_len_getitem [1, 2, 3] [4, 5, 6] rfl
    [PyramidLevel.mk 1 4 Edge.short, PyramidLevel.mk 2 5 Edge.short,
      PyramidLevel.mk 3 6 Edge.short] (by decide)).2.1 1 (by decide)

lemma runLevels_trace_idxs (resize : Image → Nat → Edge → Image) (consumer : Consumer)
    (hc : ∀ i l imgs, (consumer i l imgs).2 = Outcome.next) :
    ∀ levels : List PyramidLevel, ∀ i : Nat, ∀ imgs : List Image,
      ((runLevels resize consumer levels i imgs).2.2).filterMap PyrEvent.resizedIdx?
        = List.range' i levels.length := by
  intro levels
  induction levels with
  | nil => intro i imgs; simp [runLevels]
  | cons l rest ih =>
    intro i imgs
    rcases hp : consumer i l (resizeAll resize l imgs) with ⟨imgs2, o⟩
    have ho : o = Outcome.next := by
      have hco := hc i l (resizeAll resize l imgs)
      rw [hp] at hco
      exact hco
    subst ho
    simp [runLevels, hp, PyrEvent.resizedIdx?, ih, List.range'_succ]

/-- C5: iterating an `ImagePyramid` built from edge sizes `es` and step
counts `ns` yields each level exactly once, in ascending index order (the
resize events of a completed pass carry exactly the level indices
`0, 1, ..., len-1` in order), and the level at index `idx` carries the
idx-th input pair `(es[idx], ns[idx])`. -/
theorem pyramid_iter_levels (es ns : List Nat) (resize : Image → Nat → Edge → Image)
    (consumer : Consumer) (init : List Image)
    (h : ns.length = es.length)
    (hc : ∀ i l imgs, (consumer i l imgs).2 = Outcome.next) :
    ∀ lvls, buildLevels es (.seq ns) (.scalar Edge.short) = some lvls →
      (((ImagePyramid.mk lvls).run resize consumer init).2.2).filterMap PyrEvent.resizedIdx?
        = List.range' 0 es.length
      ∧ ∀ idx : Nat, idx < es.length →
          lvls.get? idx = some (PyramidLevel.mk (es.getD idx 0) (ns.getD idx 0) Edge.short) := by
  intro lvls hb
  have hitems := pyramid_len_getitem es ns h lvls hb
  refine ⟨?_, fun idx hidx => hitems.2.1 idx hidx⟩
  rcases hr : runLevels resize consumer lvls 0 init with ⟨fin, err, evs⟩
  have htrace := runLevels_trace_idxs resize consumer hc lvls 0 init
  rw [hr] at htrace
  simp only [ImagePyramid.run, hr]
  simp [List.filterMap_append, PyrEvent.resizedIdx?]
  simp at htrace
  have hlen : lvls.length = es.length := hitems.1
  rw [htrace, hlen]

/-- Witness for C5 at edge sizes `(1,2,3)`, steps `(4,5,6)`, a pass-through
consumer and no bound targets. -/
theorem pyramid_iter_levels_witness :
    (((ImagePyramid.mk [PyramidLevel.mk 1 4 Edge.short, PyramidLevel.mk 2 5 Edge.short,
          PyramidLevel.mk 3 6 Edge.short]).run resizeExample
        (fun _ _ imgs => (imgs, Outcome.next)) []).2.2).filterMap PyrEvent.resizedIdx?
      = List.range' 0 3 :=
  (pyramid_iter_levels [1, 2, 3] [4, 5, 6] resizeExample
    (fun _ _ imgs => (imgs, Outcome.next)) [] rfl (fun _ _ _ => rfl)
    [PyramidLevel.mk 1 4 Edge.short, PyramidLevel.mk 2 5 Edge.short,
      PyramidLevel.mk 3 6 Edge.short] (by decide)).1

/-- C3: with no explicit `num_levels`, the octave pyramid derives the level
count as the largest integer `L` with `max_edge_size / 2^(L-1) >=
min_edge_size` (stated multiplicatively: `min * 2^(L-1) ≤ max` holds and
`min * 2^L ≤ max` fails), which is `floor(log2(max/min)) + 1` and at least 1;
in particular `OctaveImagePyramid(max_edge_size=16, num_steps=1,
min_edge_size=2)` has 4 levels with edge sizes `2, 4, 8, 16` in order. -/
theorem octave_derived_num_levels (maxE minE steps : Nat)
    (h1 : 1 ≤ minE) (h2 : minE ≤ maxE) :
    (1 ≤ octaveNumLevels maxE minE
      ∧ minE * 2 ^ (octaveNumLevels maxE minE - 1) ≤ maxE
      ∧ maxE < minE * 2 ^ octaveNumLevels maxE minE)
    ∧ (∀ pyr, OctaveImagePyramid maxE (.scalar steps) none minE (.scalar Edge.short)
          = some pyr → pyr.len = octaveNumLevels maxE minE)
    ∧ (OctaveImagePyramid 16 (.scalar 1) none 2 (.scalar Edge.short)).map
        (fun pyr => pyr.levels.map PyramidLevel.edge_size) = some [2, 4, 8, 16] := by
  have hq : maxE / minE ≠ 0 := by
    have : 1 ≤ maxE / minE := (Nat.one_le_div_iff (by omega)).mpr h2
    omega
  refine ⟨⟨by simp [octaveNumLevels], ?_, ?_⟩, ?_, ?_⟩
  · have hpow : 2 ^ Nat.log2 (maxE / minE) ≤ maxE / minE := Nat.log2_self_le hq
    have hdm : minE * (maxE / minE) ≤ maxE := by
      rw [Nat.mul_comm]
      exact Nat.div_mul_le_self maxE minE
    calc minE * 2 ^ (octaveNumLevels maxE minE - 1)
        = minE * 2 ^ Nat.log2 (maxE / minE) := by simp [octaveNumLevels]
      _ ≤ minE * (maxE / minE) := Nat.mul_le_mul_left minE hpow
      _ ≤ maxE := hdm
  · have hlt : maxE / minE < 2 ^ (Nat.log2 (maxE / minE) + 1) :=
      (Nat.log2_lt hq).mp (Nat.lt_succ_self _)
    have hmod : maxE < minE * (maxE / minE) + minE := by
      have hdm := Nat.div_add_mod maxE minE
      have hml := Nat.mod_lt maxE (show 0 < minE by omega)
      omega
    calc maxE < minE * (maxE / minE) + minE := hmod
      _ = minE * (maxE / minE + 1) := by ring
      _ ≤ minE * 2 ^ (Nat.log2 (maxE / minE) + 1) := Nat.mul_le_mul_left minE (by omega)
      _ = minE * 2 ^ octaveNumLevels maxE minE := by simp [octaveNumLevels]
  · intro pyr hpyr
    rw [OctaveImagePyramid, if_neg (by omega), buildLevels_scalar] at hpyr
    simp only [Option.map_some'] at hpyr
    have := Option.some.inj hpyr
    subst this
    simp [ImagePyramid.len, octaveEdgeSizes]
  · have hlog : octaveNumLevels 16 2 = 4 := by norm_num [octaveNumLevels, Nat.log2]
    simp [OctaveImagePyramid, hlog, octaveEdgeSizes, buildLevels, ScalarOrSeq.resolve]
    decide

/-- Witness for C3: the concrete example with `max=16`, `min=2`. -/
theorem octave_derived_num_levels_witness :
    (OctaveImagePyramid 16 (.scalar 1) none 2 (.scalar Edge.short)).map
      (fun pyr => pyr.levels.map PyramidLevel.edge_size) = some [2, 4, 8, 16] :=
  (octave_derived_num_levels 16 2 1 (by decide) (by decide)).2.2

/-- C8: with explicit `num_levels = L ≥ 1`, the octave pyramid has exactly
`L` levels and the level at index `i` has edge size
`max(floor(max_edge_size / 2^(L-1-i)), 1)`, smallest first; in particular
`OctaveImagePyramid(max_edge_size=16, num_steps=1, num_levels=3,
min_edge_size=2)` has 3 levels with edge sizes `4, 8, 16`. -/
theorem octave_explicit_num_levels (maxE L steps minE : Nat) (hL : 1 ≤ L) :
    (∀ pyr, OctaveImagePyramid maxE (.scalar steps) (some L) minE (.scalar Edge.short)
        = some pyr →
      pyr.len = L
      ∧ ∀ i : Nat, i < L →
          pyr.getItem i
            = some (PyramidLevel.mk (Nat.max (maxE / 2 ^ (L - 1 - i)) 1) steps Edge.short))
    ∧ (OctaveImagePyramid 16 (.scalar 1) (some 3) 2 (.scalar Edge.short)).map
        (fun pyr => pyr.levels.map PyramidLevel.edge_size) = some [4, 8, 16] := by
  constructor
  · intro pyr hpyr
    rw [OctaveImagePyramid, buildLevels_scalar] at hpyr
    simp only [Option.map_some'] at hpyr
    have := Option.some.inj hpyr
    subst this
    constructor
    · simp [ImagePyramid.len, octaveEdgeSizes]
    · intro i hi
      show (List.map _ (octaveEdgeSizes maxE L)).get? i = _
      simp [octaveEdgeSizes]
      exact ⟨i, List.getElem?_range hi, rfl⟩
  · simp [OctaveImagePyramid, octaveEdgeSizes, buildLevels, ScalarOrSeq.resolve]
    decide

/-- Witness for C8: the concrete example with `max=16`, `L=3`. -/
theorem octave_explicit_num_levels_witness :
    (OctaveImagePyramid 16 (.scalar 1) (some 3) 2 (.scalar Edge.short)).map
      (fun pyr => pyr.levels.map PyramidLevel.edge_size) = some [4, 8, 16] :=
  (octave_explicit_num_levels 16 3 1 2 (by decide)).2

lemma runLevels_no_restored (resize : Image → Nat → Edge → Image) (consumer : Consumer) :
    ∀ levels : List PyramidLevel, ∀ i : Nat, ∀ imgs : List Image,
      ∀ ev ∈ (runLevels resize consumer levels i imgs).2.2, ev.isRestored = false := by
  intro levels
  induction levels with
  | nil => intro i imgs ev hev; simp [runLevels] at hev
  | cons l rest ih =>
    intro i imgs ev hev
    rcases hp : consumer i l (resizeAll resize l imgs) with ⟨imgs2, o⟩
    cases o with
    | next =>
      simp [runLevels, hp] at hev
      rcases hev with rfl | hev
      · rfl
      · exact ih (i + 1) imgs2 ev hev
    | brk =>
      simp [runLevels, hp] at hev
      subst hev
      rfl
    | exc e =>
      simp [runLevels, hp] at hev
      subst hev
      rfl

lemma runLevels_err_of_throws (resize : Image → Nat → Edge → Image) (consumer : Consumer)
    {levels : List PyramidLevel} {i : Nat} {imgs : List Image} {e : Nat}
    (h : Throws resize consumer levels i imgs e) :
    (runLevels resize consumer levels i imgs).2.1 = some e := by
  induction h with
  | here hp => simp [runLevels, hp]
  | there hp _ ih => simp [runLevels, hp, ih]

lemma throws_of_runLevels_err (resize : Image → Nat → Edge → Image) (consumer : Consumer) :
    ∀ levels : List PyramidLevel, ∀ i : Nat, ∀ imgs : List Image, ∀ e : Nat,
      (runLevels resize consumer levels i imgs).2.1 = some e →
      Throws resize consumer levels i imgs e := by
  intro levels
  induction levels with
  | nil => intro i imgs e h; simp [runLevels] at h
  | cons l rest ih =>
    intro i imgs e h
    rcases hp : consumer i l (resizeAll resize l imgs) with ⟨imgs2, o⟩
    cases o with
    | next =>
      simp [runLevels, hp] at h
      exact Throws.there hp (ih (i + 1) imgs2 e h)
    | brk => simp [runLevels, hp] at h
    | exc e2 =>
      simp [runLevels, hp] at h
      subst h
      exact Throws.here hp

/-- C1: for a pyramid with a non-empty set of bound targets, however an
iteration pass ends — levels exhausted, early break, or a consumer-raised
error — the targets' images end up equal to the originals captured at the
start of the pass; the restoration side effect happens exactly once, as the
last event of the pass; and the pass reports exactly the consumer's error,
unchanged, whenever the consumer raised one (and no error otherwise). -/
theorem pyramid_restore_on_exit (pyr : ImagePyramid)
    (resize : Image → Nat → Edge → Image) (consumer : Consumer)
    (init : List Image) (hne : init ≠ []) :
    (pyr.run resize consumer init).1 = init
    ∧ ((pyr.run resize consumer init).2.2).countP PyrEvent.isRestored = 1
    ∧ ((pyr.run resize consumer init).2.2).getLast? = some (PyrEvent.restored init)
    ∧ ∀ e : Nat, (pyr.run resize consumer init).2.1 = some e
        ↔ Throws resize consumer pyr.levels 0 init e := by
  rcases hr : runLevels resize consumer pyr.levels 0 init with ⟨fin, err, evs⟩
  have hnor : ∀ ev ∈ evs, ev.isRestored = false := by
    intro ev hev
    have := runLevels_no_restored resize consumer pyr.levels 0 init ev
    rw [hr] at this
    exact this hev
  refine ⟨by simp [ImagePyramid.run, hr], ?_, ?_, ?_⟩
  · simp only [ImagePyramid.run, hr]
    rw [List.countP_append, List.countP_eq_zero.mpr ?_]
    · simp [PyrEvent.isRestored]
    · intro ev hev
      simp [hnor ev hev]
  · simp only [ImagePyramid.run, hr]
    rw [List.getLast?_concat]
  · intro e
    have h1 : (pyr.run resize consumer init).2.1 = err := by simp [ImagePyramid.run, hr]
    rw [h1]
    constructor
    · intro he
      apply throws_of_runLevels_err resize consumer pyr.levels 0 init e
      rw [hr]
      exact he
    · intro ht
      have := runLevels_err_of_throws resize consumer ht
      rw [hr] at this
      exact this

/-- Witness for C1: a single-level pyramid, one bound target, and a consumer
that raises error 7 immediately; the target is restored and the error
propagates. -/
theorem pyramid_restore_on_exit_witness :
    ((ImagePyramid.mk [PyramidLevel.mk 1 1 Edge.short]).run resizeExample
        (fun _ _ imgs => (imgs, Outcome.exc 7)) [Image.mk 128 128 0]).1
      = [Image.mk 128 128 0] :=
  (pyramid_restore_on_exit (ImagePyramid.mk [PyramidLevel.mk 1 1 Edge.short])
    resizeExample (fun _ _ imgs => (imgs, Outcome.exc 7)) [Image.mk 128 128 0]
    (by decide)).1

lemma runLevels_resized_edge (resize : Image → Nat → Edge → Image) (consumer : Consumer)
    (hr : ∀ img s k, extract_edge_size (resize img s k) k = s) :
    ∀ levels : List PyramidLevel, ∀ i : Nat, ∀ imgs : List Image,
      ∀ j : Nat, ∀ imgsR : List Image,
      PyrEvent.resized j imgsR ∈ (runLevels resize consumer levels i imgs).2.2 →
      ∃ l, i ≤ j ∧ levels.get? (j - i) = some l
        ∧ ∀ img ∈ imgsR, extract_edge_size img l.edge = l.edge_size := by
  intro levels
  induction levels with
  | nil => intro i imgs j imgsR hmem; simp [runLevels] at hmem
  | cons l rest ih =>
    intro i imgs j imgsR hmem
    have hhead : PyrEvent.resized j imgsR = PyrEvent.resized i (resizeAll resize l imgs) →
        ∃ l', i ≤ j ∧ (l :: rest).get? (j - i) = some l'
          ∧ ∀ img ∈ imgsR, extract_edge_size img l'.edge = l'.edge_size := by
      intro heq
      obtain ⟨rfl, rfl⟩ : j = i ∧ imgsR = resizeAll resize l imgs := by
        cases heq
        exact ⟨rfl, rfl⟩
      refine ⟨l, Nat.le_refl _, by simp, ?_⟩
      intro img himg
      simp [resizeAll, List.mem_map] at himg
      obtain ⟨orig, _, rfl⟩ := himg
      exact hr orig l.edge_size l.edge
    rcases hp : consumer i l (resizeAll resize l imgs) with ⟨imgs2, o⟩
    cases o with
    | next =>
      simp only [runLevels, hp] at hmem
      rcases List.mem_cons.mp hmem with heq | htail
      · exact hhead heq
      · obtain ⟨l', hij, hget, hedge⟩ := ih (i + 1) imgs2 j imgsR htail
        refine ⟨l', by omega, ?_, hedge⟩
        have hji : j - i = (j - (i + 1)) + 1 := by omega
        rw [hji]
        simpa using hget
    | brk =>
      simp only [runLevels, hp, List.mem_singleton] at hmem
      exact hhead hmem
    | exc e =>
      simp only [runLevels, hp, List.mem_singleton] at hmem
      exact hhead hmem

/-- The concrete external resize operation satisfies the spec's resize
contract: the requested edge of the result equals the requested size. -/
lemma resizeExample_contract : ∀ img s k,
    extract_edge_size (resizeExample img s k) k = s := by
  intro img s k
  cases k <;> simp [resizeExample, extract_edge_size]

/-- C2: under the resize contract, every resize event of an iteration pass
belongs to a level of the pyramid and leaves every bound target with the
level's edge size along the level's edge kind; the first level's resize is
applied to the captured original images; each subsequent level's resize is
applied to the images the consumer currently holds (not the saved
originals); and on the concrete example — one target at 128×128, levels
(32, 64) along SHORT — the pass resizes the target to short edge 32, then
64, then restores the original. -/
theorem pyramid_resize_on_iterate (pyr : ImagePyramid)
    (resize : Image → Nat → Edge → Image) (consumer : Consumer) (init : List Image)
    (hr : ∀ img s k, extract_edge_size (resize img s k) k = s) :
    (∀ j : Nat, ∀ imgsR : List Image,
        PyrEvent.resized j imgsR ∈ (pyr.run resize consumer init).2.2 →
        ∃ l, pyr.levels.get? j = some l
          ∧ ∀ img ∈ imgsR, extract_edge_size img l.edge = l.edge_size)
    ∧ (∀ l rest, pyr.levels = l :: rest →
        ((pyr.run resize consumer init).2.2).head?
          = some (PyrEvent.resized 0 (resizeAll resize l init)))
    ∧ (∀ l lvl2 rest, ∀ i : Nat, ∀ imgs imgs2 : List Image,
        consumer i l (resizeAll resize l imgs) = (imgs2, Outcome.next) →
        ((runLevels resize consumer (l :: lvl2 :: rest) i imgs).2.2).get? 1
          = some (PyrEvent.resized (i + 1) (resizeAll resize lvl2 imgs2)))
    ∧ ((ImagePyramid.mk [PyramidLevel.mk 32 1 Edge.short, PyramidLevel.mk 64 1 Edge.short]).run
          resizeExample (fun _ _ imgs => (imgs, Outcome.next)) [Image.mk 128 128 0]).2.2
        = [PyrEvent.resized 0 [Image.mk 32 32 1], PyrEvent.resized 1 [Image.mk 64 64 2],
            PyrEvent.restored [Image.mk 128 128 0]] := by
  refine ⟨?_, ?_, ?_, by rfl⟩
  · intro j imgsR hmem
    rcases hrun : runLevels resize consumer pyr.levels 0 init with ⟨fin, err, evs⟩
    simp only [ImagePyramid.run, hrun, List.mem_append, List.mem_singleton] at hmem
    rcases hmem with hmem | hmem
    · have := runLevels_resized_edge resize consumer hr pyr.levels 0 init j imgsR
      rw [hrun] at this
      obtain ⟨l, _, hget, hedge⟩ := this hmem
      exact ⟨l, by simpa using hget, hedge⟩
    · cases hmem
  · intro l rest hlv
    rcases hp : consumer 0 l (resizeAll resize l init) with ⟨imgs2, o⟩
    cases o <;> simp [ImagePyramid.run, hlv, runLevels, hp]
  · intro l lvl2 rest i imgs imgs2 hp
    rcases hp2 : consumer (i + 1) lvl2 (resizeAll resize lvl2 imgs2) with ⟨imgs3, o2⟩
    cases o2 <;> simp [runLevels, hp, hp2]

/-- Witness for C2: the concrete 128 → 32 → 64 → restore trace with the
contract-satisfying concrete resize. -/
theorem pyramid_resize_on_iterate_witness :
    ((ImagePyramid.mk [PyramidLevel.mk 32 1 Edge.short, PyramidLevel.mk 64 1 Edge.short]).run
        resizeExample (fun _ _ imgs => (imgs, Outcome.next)) [Image.mk 128 128 0]).2.2
      = [PyrEvent.resized 0 [Image.mk 32 32 1], PyrEvent.resized 1 [Image.mk 64 64 2],
          PyrEvent.restored [Image.mk 128 128 0]] :=
  (pyramid_resize_on_iterate
    (ImagePyramid.mk [PyramidLevel.mk 32 1 Edge.short, PyramidLevel.mk 64 1 Edge.short])
    resizeExample (fun _ _ imgs => (imgs, Outcome.next)) [Image.mk 128 128 0]
    resizeExample_contract).2.2.2

/-- C9: each iteration pass captures its originals freshly from whatever
images the targets hold at that pass's start, and restores exactly those at
its end — for every start state, not just the images of the first pass; in
particular a second pass over the same instance starts from the restored
state of the first, produces the identical event sequence (the model is a
pure function of the start state), and ends restored to its own start. -/
theorem pyramid_reiterate_fresh_capture (pyr : ImagePyramid)
    (resize : Image → Nat → Edge → Image) (consumer : Consumer) (init : List Image) :
    (∀ s : List Image, (pyr.run resize consumer s).1 = s)
    ∧ (pyr.run resize consumer ((pyr.run resize consumer init).1)).2.2
        = (pyr.run resize consumer init).2.2
    ∧ (pyr.run resize consumer ((pyr.run resize consumer init).1)).1 = init := by
  have hfst : ∀ s : List Image, (pyr.run resize consumer s).1 = s := by
    intro s
    rcases hr : runLevels resize consumer pyr.levels 0 s with ⟨fin, err, evs⟩
    simp [ImagePyramid.run, hr]
  refine ⟨hfst, ?_, ?_⟩
  · rw [hfst init]
  · rw [hfst init]
    exact hfst init

/-- Witness for C9: a pass over a one-level pyramid started from an
arbitrary concrete state ends restored to exactly that state. -/
theorem pyramid_reiterate_fresh_capture_witness :
    ((ImagePyramid.mk [PyramidLevel.mk 32 1 Edge.short]).run resizeExample
        (fun _ _ imgs => (imgs, Outcome.next)) [Image.mk 7 9 0]).1 = [Image.mk 7 9 0] :=
  (pyramid_reiterate_fresh_capture (ImagePyramid.mk [PyramidLevel.mk 32 1 Edge.short])
    resizeExample (fun _ _ imgs => (imgs, Outcome.next)) [Image.mk 7 9 0]).1 [Image.mk 7 9 0]

/-! ### Lemmas and theorem for the VGG labelling -/

lemma collectLoop_length (ai : Bool) :
    ∀ ms : List NNModule, ∀ b d : Nat, (collectLoop ai ms b d).length = ms.length := by
  intro ms
  induction ms with
  | nil => intro b d; rfl
  | cons x rest ih => intro b d; cases x <;> simp [collectLoop, ih]

lemma collectLoop_get? (ai : Bool) :
    ∀ ms : List NNModule, ∀ b d idx : Nat, ∀ m : NNModule, ms.get? idx = some m →
      (collectLoop ai ms b d).get? idx
        = some (schemeName m (counterAfter (ms.take idx) (b, d)), placedModule ai m) := by
  intro ms
  induction ms with
  | nil => intro b d idx m hm; simp at hm
  | cons x rest ih =>
    intro b d idx m hm
    cases idx with
    | zero =>
      have hx : x = m := by simpa using hm
      subst hx
      cases x <;> rfl
    | succ j =>
      have hm2 : rest.get? j = some m := by simpa using hm
      cases x <;>
        simpa [collectLoop, counterAfter, counterStep, List.take_succ_cons]
          using ih _ _ j m hm2

/-- C10: `_collect_modules` labels the children of the VGG feature extractor
by the block/depth scheme — `conv{block}_{depth}` for `nn.Conv2d`,
`bn{block}_{depth}` for `nn.BatchNorm2d`, `relu{block}_{depth}` for
`nn.ReLU` and `pool{block}` for pooling layers — where depth is incremented
after each ReLU and block is incremented with depth reset to 1 after each
pooling layer, both starting at 1; whenever `allow_inplace` is false, every
ReLU placed in the module list is a non-inplace ReLU; and enabling
`internal_preprocessing` only prepends the preprocessing stage. -/
theorem vgg_collect_modules_labels (ai : Bool) (ms : List NNModule) :
    (collectModules false ai ms).length = ms.length
    ∧ (∀ idx : Nat, ∀ m : NNModule, ms.get? idx = some m →
        (collectModules false ai ms).get? idx
          = some (schemeName m (counterAfter (ms.take idx) (1, 1)), placedModule ai m))
    ∧ (∀ ip : Bool, placedModule false (NNModule.relu ip) = NNModule.relu false)
    ∧ collectModules true ai ms
        = ("preprocessing", NNModule.preprocessor) :: collectModules false ai ms := by
  refine ⟨?_, ?_, fun ip => rfl, by simp [collectModules]⟩
  · simp [collectModules, collectLoop_length]
  · intro idx m hm
    simpa [collectModules] using collectLoop_get? ai ms 1 1 idx m hm

/-- Witness for C10: the first VGG11 blocks
`conv, relu, pool, conv, relu, pool, conv, relu, conv` label position 8 as
`conv3_2`, and with `allow_inplace = false` the placed module at a ReLU
position is non-inplace. -/
theorem vgg_collect_modules_labels_witness :
    (collectModules false false [NNModule.conv2d, NNModule.relu true, NNModule.maxPool2d,
        NNModule.conv2d, NNModule.relu true, NNModule.maxPool2d,
        NNModule.conv2d, NNModule.relu true, NNModule.conv2d]).get? 8
      = some ("conv3_2", NNModule.conv2d) :=
  (vgg_collect_modules_labels false [NNModule.conv2d, NNModule.relu true, NNModule.maxPool2d,
      NNModule.conv2d, NNModule.relu true, NNModule.maxPool2d,
      NNModule.conv2d, NNModule.relu true, NNModule.conv2d]).2.1 8 NNModule.conv2d rfl

end Pystiche
